import Mathlib

/-!
Shallow embedding of src/helix-term/src/ui/refactor.rs (RefactorView).

The match set is a Rust HashMap<PathBuf, Vec<(usize, String)>>.  We embed it
as an association list in one fixed iteration order (HashMap iteration order
is not contractually defined; the spec documents this nondeterminism, and all
theorems below hold for every order since they quantify over the list).
HashMap key uniqueness is reflected by Nodup hypotheses on the path list
where a property needs it.  Text content is embedded as List Char, with the
rope line primitives (get_line, len_lines, line_to_char) of the underlying
text buffer modelled after their documented semantics.
-/

namespace Refactor

abbrev Str := List Char

/-- File paths; only compared for equality. -/
abbrev Path := String

/-- HashMap<PathBuf, Vec<(usize, String)>> in one fixed iteration order. -/
abbrev Matches := List (Path × List (Nat × Str))

/-- line_map : HashMap<(PathBuf, usize), usize>; most recent insert first. -/
abbrev LineMap := List ((Path × Nat) × Nat)

/-- The real file system: per path, some content when the file can be opened
for editing, none when opening it fails.  Modelled from the spec: "open a
file for editing, returning a handle or failure" is an opaque collaborator
operation (Editor::open / document_mut are not under src/). -/
abbrev FS := List (Path × Option Str)

/-- HashMap::get against the insertion list (later inserts are prepended, so
the first match is the live binding, i.e. inserts overwrite). -/
def lmGet : LineMap → (Path × Nat) → Option Nat
  | [], _ => none
  | e :: rest, k => if e.1 = k then some e.2 else lmGet rest k

/-- Accumulator of the construction loop in RefactorView::new: the rope
doc_text, the line_map, and the running counter count. -/
structure BuildState where
  buf : Str
  lm : LineMap
  count : Nat

/-- Inner loop of RefactorView::new over one file's (line, text) list:
append text then a newline, record line_map[(key, line)] = count, count += 1. -/
def buildGo (p : Path) : List (Nat × Str) → BuildState → BuildState
  | [], st => st
  | e :: es, st =>
      buildGo p es
        { buf := st.buf ++ e.2 ++ ['\n']
          lm := ((p, e.1), st.count) :: st.lm
          count := st.count + 1 }

/-- Outer loop of RefactorView::new over the files. -/
def buildAll : Matches → BuildState → BuildState
  | [], st => st
  | f :: fs, st => buildAll fs (buildGo f.1 f.2 st)

/-- RefactorView::new, construction part: run the nested loops, then
doc_text.split_off(len_chars().saturating_sub(1)) keeps the first len-1
characters, removing the one trailing newline (saturating on empty input). -/
def build (m : Matches) : BuildState :=
  let st := buildAll m { buf := [], lm := [], count := 0 }
  { st with buf := st.buf.take (st.buf.length - 1) }

/-- Rope line decomposition (ropey): every line except possibly the last
ends in the newline that terminates it; an empty rope has one empty line. -/
def ropeLines : Str → List Str
  | [] => [[]]
  | c :: rest =>
      if c = '\n' then ['\n'] :: ropeLines rest
      else
        match ropeLines rest with
        | l :: ls => (c :: l) :: ls
        | [] => [[c]]

/-- Rope::len_lines. -/
def lenLines (s : Str) : Nat := (ropeLines s).length

/-- Rope::get_line. -/
def getLine (s : Str) (i : Nat) : Option Str := (ropeLines s)[i]?

/-- Rope::line_to_char: character offset of the start of line i. -/
def lineToChar (s : Str) (i : Nat) : Nat :=
  (((ropeLines s).take i).map List.length).sum

/-- str::strip_suffix("\n").unwrap_or(original). -/
def stripNl (s : Str) : Str :=
  if s.getLast? = some '\n' then s.dropLast else s

/-- Editor::open + document_mut chain: some content on success, none on
failure (missing path, or a path marked unopenable). -/
def openFile : FS → Path → Option Str
  | [], _ => none
  | e :: rest, p => if e.1 = p then e.2 else openFile rest p

/-- Store the new content of path p back into the file system. -/
def writeFile : FS → Path → Str → FS
  | [], _, _ => []
  | e :: rest, p, c =>
      if e.1 = p then (e.1, some c) :: writeFile rest p c
      else e :: writeFile rest p c

/-- Modelled from the spec: "apply a batch of (startOffset, endOffset,
replacementText) range edits to a buffer as one atomic transaction"
(Transaction::change / apply_transaction are not under src/).  Applied right
to left so that the offsets of earlier edits stay valid; this is the
standard semantics for the ascending, non-overlapping ranges apply_refactor
produces. -/
def applyChanges (s : Str) (chs : List (Nat × Nat × Str)) : Str :=
  chs.foldr (fun ch acc => acc.take ch.1 ++ ch.2.2 ++ acc.drop ch.2.1) s

/-- First loop of apply_refactor for one file: for each (line, text), look
up the buffer row, read the current row content (a missing row reads as
"\n"), strip the trailing newline, and record (line, chars(text), current)
when the content differs from the snapshot text. -/
def pendingChanges (lm : LineMap) (buf : Str) (p : Path) :
    List (Nat × Str) → List (Nat × Nat × Str)
  | [] => []
  | e :: es =>
      match lmGet lm (p, e.1) with
      | some r =>
          let replace := stripNl ((getLine buf r).getD ['\n'])
          if e.2 ≠ replace then
            (e.1, e.2.length, replace) :: pendingChanges lm buf p es
          else pendingChanges lm buf p es
      | none => pendingChanges lm buf p es

/-- Second loop of apply_refactor for one opened file of content d: keep
each pending change whose line still exists (len_lines d > line), turn it
into the range [line_to_char line, line_to_char line + length), and count
it. -/
def stageChanges (d : Str) : List (Nat × Nat × Str) → List (Nat × Nat × Str) × Nat
  | [] => ([], 0)
  | ch :: rest =>
      let (staged, cnt) := stageChanges d rest
      if lenLines d > ch.1 then
        let start := lineToChar d ch.1
        ((start, start + ch.2.1, ch.2.2) :: staged, cnt + 1)
      else (staged, cnt)

/-- Per-file body of apply_refactor: compute the pending changes; when
nonempty, open the file (a failure skips the file), count the document,
stage the in-range changes and apply them as one transaction. -/
def processFile (lm : LineMap) (buf : Str) (fs : FS) (f : Path × List (Nat × Str)) :
    Nat × Nat × FS :=
  let chs := pendingChanges lm buf f.1 f.2
  if chs.isEmpty then (0, 0, fs)
  else
    match openFile fs f.1 with
    | none => (0, 0, fs)
    | some d =>
        let (staged, cnt) := stageChanges d chs
        (1, cnt, writeFile fs f.1 (applyChanges d staged))

/-- RefactorView::apply_refactor: fold the per-file processing over the
match set, accumulating the (documents, count) counters and threading the
file system; buf is the clone of the synthetic document taken on entry. -/
def applyRefactor (lm : LineMap) (buf : Str) : Matches → FS → Nat × Nat × FS
  | [], fs => (0, 0, fs)
  | f :: rest, fs =>
      let r := processFile lm buf fs f
      let rr := applyRefactor lm buf rest r.2.2
      (r.1 + rr.1, r.2.1 + rr.2.1, rr.2.2)

/-- The static UNSUPPORTED_COMMANDS set of refactor.rs. -/
def UNSUPPORTED_COMMANDS : List String :=
  [ "global_search", "global_refactor", "file_picker",
    "file_picker_in_current_directory", "code_action", "buffer_picker",
    "jumplist_picker", "symbol_picker",
    "select_references_to_symbol_under_cursor", "workspace_symbol_picker",
    "diagnostics_picker", "workspace_diagnostics_picker", "last_picker",
    "goto_definition", "goto_type_definition", "goto_implementation",
    "goto_file", "goto_file_hsplit", "goto_file_vsplit", "goto_reference",
    "goto_window_top", "goto_window_center", "goto_window_bottom",
    "goto_last_accessed_file", "goto_last_modified_file",
    "goto_last_modification", "goto_line", "goto_last_line",
    "goto_first_diag", "goto_last_diag", "goto_next_diag", "goto_prev_diag",
    "goto_line_start", "goto_line_end", "goto_next_buffer",
    "goto_previous_buffer", "signature_help", "completion", "hover",
    "select_next_sibling", "select_prev_sibling", "jump_view_right",
    "jump_view_left", "jump_view_up", "jump_view_down", "swap_view_right",
    "swap_view_left", "swap_view_up", "swap_view_down", "transpose_view",
    "rotate_view", "hsplit", "hsplit_new", "vsplit", "vsplit_new", "wonly",
    "select_textobject_around", "select_textobject_inner",
    "goto_next_function", "goto_prev_function", "goto_next_class",
    "goto_prev_class", "goto_next_parameter", "goto_prev_parameter",
    "goto_next_comment", "goto_prev_comment", "goto_next_test",
    "goto_prev_test", "goto_next_paragraph", "goto_prev_paragraph",
    "dap_launch", "dap_toggle_breakpoint", "dap_continue", "dap_pause",
    "dap_step_in", "dap_step_out", "dap_next", "dap_variables",
    "dap_terminate", "dap_edit_condition", "dap_edit_log",
    "dap_switch_thread", "dap_switch_stack_frame", "dap_enable_exceptions",
    "dap_disable_exceptions", "shell_pipe", "shell_pipe_to",
    "shell_insert_output", "shell_append_output", "shell_keep_pipe",
    "suspend", "rename_symbol", "record_macro", "replay_macro",
    "command_palette" ]

/-- Key codes: Esc, a character key, or any other non-character key
(tagged by a number so distinct keys stay distinct). -/
inductive Key where
  | esc : Key
  | char : Char → Key
  | other : Nat → Key
deriving DecidableEq

/-- KeyEvent::char(): only character keys carry a char. -/
def keyChar : Key → Option Char
  | .char c => some c
  | _ => none

/-- The key-binding trie (keymap::KeyTrie): a command leaf, a macro
sequence, or an inner node of children. -/
inductive KeyTrie where
  | leaf : String → KeyTrie
  | sequence : KeyTrie
  | node : List (Key × KeyTrie) → KeyTrie

/-- A trie node's child map. -/
abbrev TrieNode := List (Key × KeyTrie)

/-- KeyTrieNode::get: resolve one key against a node. -/
def trieGet : TrieNode → Key → Option KeyTrie
  | [], _ => none
  | e :: rest, k => if e.1 = k then some e.2 else trieGet rest k

/-- sticky.and_then(get event).or(keymap.get(mode).and_then(get event)):
resolve against the sticky node when present, falling back to the current
mode's top-level map (km is none when the keymap has no entry for the
current mode). -/
def resolveKey (sticky km : Option TrieNode) (k : Key) : Option KeyTrie :=
  match sticky.bind (fun n => trieGet n k) with
  | some t => some t
  | none => km.bind (fun n => trieGet n k)

/-- The mutable fields of RefactorView read and written by handle_event,
plus the hosted editor's autoinfo box (set from sticky nodes). -/
structure RState where
  sticky : Option TrieNode
  apply_prompt : Bool
  autoinfo : Option TrieNode

/-- The spec's SessionState abstraction of the controller state. -/
inductive SState where
  | browsing : SState
  | stickyNav : SState
  | confirmPending : SState
deriving DecidableEq

/-- Abstraction map: the pending prompt dominates (the prompt branch of
handle_event runs before any key resolution), else a sticky node means an
in-progress multi-key sequence. -/
def sessionState (sticky : Option TrieNode) (ap : Bool) : SState :=
  if ap then .confirmPending
  else if sticky.isSome then .stickyNav else .browsing

/-- Everything observable about one handle_event call: the state fields
afterwards, the file system afterwards, the last status message set, whether
the event was consumed, whether the session was closed, and the
(documents, count) pair when apply_refactor ran. -/
structure StepResult where
  sticky : Option TrieNode
  apply_prompt : Bool
  autoinfo : Option TrieNode
  fs : FS
  status : Option String
  consumed : Bool
  closed : Bool
  applied : Option (Nat × Nat)

/-- The status message format! of the commit summary. -/
def summaryMsg (documents count : Nat) : String :=
  "Refactored " ++ toString documents ++ " documents, " ++ toString count
    ++ " lines changed."

/-- Events reaching Component::handle_event: a key event or anything else
(paste, resize, ...), which falls through to Ignored. -/
inductive REvent where
  | key : Key → REvent
  | nonKey : REvent

/-- RefactorView::handle_event.  km is the top-level trie of the current
editor mode; matches, lm and buf are the session's match snapshot, line map
and the current synthetic buffer text (read by apply_refactor on confirm);
fs is the real file system. -/
def handleEvent (km : Option TrieNode) (ms : Matches) (lm : LineMap)
    (buf : Str) (s : RState) (fs : FS) (ev : REvent) : StepResult :=
  match ev with
  | .nonKey =>
      { sticky := s.sticky, apply_prompt := s.apply_prompt
        autoinfo := s.autoinfo, fs := fs, status := none
        consumed := false, closed := false, applied := none }
  | .key k =>
      if k = .esc then
        -- KeyCode::Esc arm: only clears sticky, then falls to Ignored.
        { sticky := none, apply_prompt := s.apply_prompt
          autoinfo := s.autoinfo, fs := fs, status := none
          consumed := false, closed := false, applied := none }
      else if s.apply_prompt then
        match keyChar k with
        | some c =>
            if c = 'y' ∨ c = 'Y' then
              let r := applyRefactor lm buf ms fs
              -- set_status(summary) then self.close: autoinfo cleared,
              -- Consumed with the pop callback.
              { sticky := s.sticky, apply_prompt := s.apply_prompt
                autoinfo := none, fs := r.2.2
                status := some (summaryMsg r.1 r.2.1)
                consumed := true, closed := true, applied := some (r.1, r.2.1) }
            else
              { sticky := s.sticky, apply_prompt := false
                autoinfo := s.autoinfo, fs := fs, status := some "Aborted"
                consumed := true, closed := false, applied := none }
        | none =>
            { sticky := s.sticky, apply_prompt := false
              autoinfo := s.autoinfo, fs := fs, status := some "Aborted"
              consumed := true, closed := false, applied := none }
      else
        match resolveKey s.sticky km k with
        | some (.leaf cmd) =>
            if cmd ∈ UNSUPPORTED_COMMANDS then
              { sticky := s.sticky, apply_prompt := s.apply_prompt
                autoinfo := s.autoinfo, fs := fs
                status := some "Command not supported in refactor view"
                consumed := true, closed := false, applied := none }
            else if cmd = "wclose" then
              { sticky := s.sticky, apply_prompt := s.apply_prompt
                autoinfo := none, fs := fs, status := none
                consumed := true, closed := true, applied := none }
            else if cmd = "command_mode" then
              { sticky := s.sticky, apply_prompt := true
                autoinfo := s.autoinfo, fs := fs
                status := some "Apply changes to documents? (y/n): "
                consumed := true, closed := false, applied := none }
            else
              -- any other leaf: clear sticky and autoinfo, fall to Ignored
              { sticky := none, apply_prompt := s.apply_prompt
                autoinfo := none, fs := fs, status := none
                consumed := false, closed := false, applied := none }
        | some .sequence =>
            { sticky := s.sticky, apply_prompt := s.apply_prompt
              autoinfo := s.autoinfo, fs := fs, status := none
              consumed := false, closed := false, applied := none }
        | some (.node n) =>
            { sticky := some n, apply_prompt := s.apply_prompt
              autoinfo := some n, fs := fs, status := none
              consumed := true, closed := false, applied := none }
        | none =>
            { sticky := s.sticky, apply_prompt := s.apply_prompt
              autoinfo := s.autoinfo, fs := fs, status := none
              consumed := false, closed := false, applied := none }

/-- The flattened (path, line, text) entries in iteration order. -/
def flatEntries : Matches → List (Path × Nat × Str)
  | [] => []
  | f :: rest => f.2.map (fun e => (f.1, e.1, e.2)) ++ flatEntries rest

/-- The (path, line) keys occurring in the match set, in iteration order. -/
def flatKeys (m : Matches) : List (Path × Nat) :=
  (flatEntries m).map (fun x => (x.1, x.2.1))

/-- The original texts in iteration order. -/
def flatTexts (m : Matches) : List Str :=
  (flatEntries m).map (fun x => x.2.2)

/-- totalMatchCount: the total number of (line, text) pairs. -/
def totalMatches (m : Matches) : Nat := (m.map (fun f => f.2.length)).sum

/-- Pair each key with consecutive counter values starting at c. -/
def enumFrom (c : Nat) : List (Path × Nat) → List ((Path × Nat) × Nat)
  | [] => []
  | k :: ks => (k, c) :: enumFrom (c + 1) ks

/-- Concatenation of the texts, each followed by a newline (doc_text before
the final split_off). -/
def glue : List Str → Str
  | [] => []
  | t :: ts => t ++ '\n' :: glue ts

/-- The bijection property of claim C2: every key of the match set is
mapped to a row below totalMatchCount, no two keys map to the same row, and
every row below totalMatchCount is hit. -/
def lineMapBijective (m : Matches) (lm : LineMap) : Prop :=
  (∀ k ∈ flatKeys m, ∃ r, r < totalMatches m ∧ lmGet lm k = some r) ∧
  (∀ k₁ ∈ flatKeys m, ∀ k₂ ∈ flatKeys m, lmGet lm k₁ = lmGet lm k₂ → k₁ = k₂) ∧
  (∀ r, r < totalMatches m → ∃ k ∈ flatKeys m, lmGet lm k = some r)

/-- The read-back property of claim C3: for every match of the set, reading
the row its key is mapped to back from the freshly built buffer (trailing
newline stripped, exactly as apply_refactor reads rows) gives the original
text. -/
def readBackOk (m : Matches) : Prop :=
  ∀ f ∈ m, ∀ e ∈ f.2, ∀ r,
    lmGet (build m).lm (f.1, e.1) = some r →
    stripNl ((getLine (build m).buf r).getD ['\n']) = e.2

/-- A file gets a transaction applied iff it has pending changes and opens. -/
def fileApplies (lm : LineMap) (buf : Str) (fs : FS)
    (f : Path × List (Nat × Str)) : Bool :=
  !(pendingChanges lm buf f.1 f.2).isEmpty && (openFile fs f.1).isSome

/-- Number of pending edits of a file that survive the line-count guard. -/
def fileKeptCount (lm : LineMap) (buf : Str) (fs : FS)
    (f : Path × List (Nat × Str)) : Nat :=
  match openFile fs f.1 with
  | none => 0
  | some d =>
      if (pendingChanges lm buf f.1 f.2).isEmpty then 0
      else ((pendingChanges lm buf f.1 f.2).filter
        (fun ch => ch.1 < lenLines d)).length

/-- Distinctness of the file paths (HashMap key uniqueness). -/
abbrev pathsNodup (m : Matches) : Prop := (m.map (fun f => f.1)).Nodup

/-! Concrete data of the claim C1 scenario. -/

/-- matches = {"a.txt": [(0,"foo"), (2,"bar")], "b.txt": [(1,"baz")]},
in the iteration order of the scenario. -/
def matchesC1 : Matches :=
  [("a.txt", [(0, "foo".data), (2, "bar".data)]),
   ("b.txt", [(1, "baz".data)])]

/-- The real files: a.txt has "bar" as its line 2 and "foo" as its line 0,
b.txt has "baz" as its line 1. -/
def fsC1 : FS :=
  [("a.txt", some "foo\nmid\nbar\ntail".data),
   ("b.txt", some "x\nbaz".data)]

/-- The synthetic buffer after the user edits row 1 to "qux". -/
def editedC1 : Str := "foo\nqux\nbaz".data

/-! Theorems.  General lemmas about the construction loop first. -/

theorem buildGo_count (p : Path) (es : List (Nat × Str)) (st : BuildState) :
    (buildGo p es st).count = st.count + es.length := by
  induction es generalizing st with
  | nil => simp [buildGo]
  | cons e es ih => simp [buildGo, ih]; omega

theorem buildGo_lm (p : Path) (es : List (Nat × Str)) (st : BuildState) :
    (buildGo p es st).lm =
      (enumFrom st.count (es.map (fun e => (p, e.1)))).reverse ++ st.lm := by
  induction es generalizing st with
  | nil => simp [buildGo, enumFrom]
  | cons e es ih =>
      simp [buildGo, ih, enumFrom, List.append_assoc]

theorem buildGo_buf (p : Path) (es : List (Nat × Str)) (st : BuildState) :
    (buildGo p es st).buf = st.buf ++ glue (es.map (fun e => e.2)) := by
  induction es generalizing st with
  | nil => simp [buildGo, glue]
  | cons e es ih => simp [buildGo, ih, glue]

theorem flatEntries_length (m : Matches) :
    (flatEntries m).length = totalMatches m := by
  induction m with
  | nil => rfl
  | cons f rest ih =>
      simp only [flatEntries, List.length_append, List.length_map,
        totalMatches, List.map_cons, List.sum_cons]
      simp only [totalMatches] at ih
      omega

theorem flatKeys_cons (f : Path × List (Nat × Str)) (rest : Matches) :
    flatKeys (f :: rest) =
      f.2.map (fun e => (f.1, e.1)) ++ flatKeys rest := by
  simp [flatKeys, flatEntries, List.map_map, Function.comp]

theorem flatTexts_cons (f : Path × List (Nat × Str)) (rest : Matches) :
    flatTexts (f :: rest) = f.2.map (fun e => e.2) ++ flatTexts rest := by
  simp [flatTexts, flatEntries, List.map_map, Function.comp]

theorem flatKeys_length (m : Matches) :
    (flatKeys m).length = totalMatches m := by
  simp [flatKeys, flatEntries_length]

theorem flatTexts_length (m : Matches) :
    (flatTexts m).length = totalMatches m := by
  simp [flatTexts, flatEntries_length]

theorem enumFrom_append (c : Nat) (l₁ l₂ : List (Path × Nat)) :
    enumFrom c (l₁ ++ l₂) = enumFrom c l₁ ++ enumFrom (c + l₁.length) l₂ := by
  induction l₁ generalizing c with
  | nil => simp [enumFrom]
  | cons a l ih =>
      rw [List.cons_append, enumFrom, enumFrom, ih, List.length_cons]
      have h : c + 1 + l.length = c + (l.length + 1) := by omega
      rw [h, List.cons_append]

theorem glue_append (l₁ l₂ : List Str) :
    glue (l₁ ++ l₂) = glue l₁ ++ glue l₂ := by
  induction l₁ with
  | nil => simp [glue]
  | cons t l ih => simp [glue, ih]

theorem buildAll_count (m : Matches) (st : BuildState) :
    (buildAll m st).count = st.count + totalMatches m := by
  induction m generalizing st with
  | nil => simp [buildAll, totalMatches]
  | cons f rest ih =>
      simp [buildAll, ih, buildGo_count, totalMatches]
      omega

theorem buildAll_lm (m : Matches) (st : BuildState) :
    (buildAll m st).lm = (enumFrom st.count (flatKeys m)).reverse ++ st.lm := by
  induction m generalizing st with
  | nil => simp [buildAll, flatKeys, flatEntries, enumFrom]
  | cons f rest ih =>
      rw [buildAll, ih, buildGo_lm, buildGo_count, flatKeys_cons,
        enumFrom_append, List.reverse_append, List.append_assoc,
        List.length_map]

theorem buildAll_buf (m : Matches) (st : BuildState) :
    (buildAll m st).buf = st.buf ++ glue (flatTexts m) := by
  induction m generalizing st with
  | nil => simp [buildAll, flatTexts, flatEntries, glue]
  | cons f rest ih =>
      rw [buildAll, ih, buildGo_buf, flatTexts_cons, glue_append,
        List.append_assoc]

theorem build_lm (m : Matches) :
    (build m).lm = (enumFrom 0 (flatKeys m)).reverse := by
  simp [build, buildAll_lm]

theorem build_buf (m : Matches) :
    (build m).buf =
      (glue (flatTexts m)).take ((glue (flatTexts m)).length - 1) := by
  simp [build, buildAll_buf]

theorem lmGet_append_some (l₁ l₂ : LineMap) (k : Path × Nat) (v : Nat)
    (h : lmGet l₁ k = some v) : lmGet (l₁ ++ l₂) k = some v := by
  induction l₁ with
  | nil => simp [lmGet] at h
  | cons e l ih =>
      by_cases he : e.1 = k
      · simpa [lmGet, he] using (by simpa [lmGet, he] using h)
      · simp [lmGet, he] at h ⊢
        exact ih h

theorem lmGet_append_none (l₁ l₂ : LineMap) (k : Path × Nat)
    (h : lmGet l₁ k = none) : lmGet (l₁ ++ l₂) k = lmGet l₂ k := by
  induction l₁ with
  | nil => simp [lmGet]
  | cons e l ih =>
      by_cases he : e.1 = k
      · simp [lmGet, he] at h
      · simp [lmGet, he] at h ⊢
        exact ih h

theorem lmGet_enum_not_mem (ks : List (Path × Nat)) (c : Nat) (k : Path × Nat)
    (h : k ∉ ks) : lmGet (enumFrom c ks).reverse k = none := by
  induction ks generalizing c with
  | nil => simp [enumFrom, lmGet]
  | cons a ks ih =>
      have hka : k ≠ a := fun hh => h (by simp [hh])
      have hks : k ∉ ks := fun hh => h (by simp [hh])
      rw [enumFrom, List.reverse_cons,
        lmGet_append_none _ _ _ (ih (c + 1) hks)]
      simp [lmGet, Ne.symm hka]

theorem lmGet_enum_get (ks : List (Path × Nat)) (hnd : ks.Nodup) (c : Nat)
    (i : Nat) (hi : i < ks.length) :
    lmGet (enumFrom c ks).reverse (ks.get ⟨i, hi⟩) = some (c + i) := by
  induction ks generalizing c i with
  | nil => simp at hi
  | cons a ks ih =>
      rw [List.nodup_cons] at hnd
      cases i with
      | zero =>
          rw [enumFrom, List.reverse_cons,
            lmGet_append_none _ _ _ (lmGet_enum_not_mem ks (c + 1) _ (by simpa using hnd.1))]
          simp [lmGet]
      | succ j =>
          have hj : j < ks.length := by simpa using hi
          rw [enumFrom, List.reverse_cons,
            lmGet_append_some _ _ _ _ (by simpa using ih hnd.2 (c + 1) j hj)]
          congr 1
          omega

theorem getLast?_mem (t : Str) (c : Char) (h : t.getLast? = some c) :
    c ∈ t := by
  induction t with
  | nil => simp at h
  | cons a rest ih =>
      cases rest with
      | nil =>
          simp at h
          simp [h]
      | cons b rs =>
          rw [List.getLast?_cons_cons] at h
          exact List.mem_cons_of_mem _ (ih h)

theorem stripNl_concat (t : Str) : stripNl (t ++ ['\n']) = t := by
  simp [stripNl]

theorem stripNl_no_nl (t : Str) (h : '\n' ∉ t) : stripNl t = t := by
  unfold stripNl
  rw [if_neg]
  intro hlast
  exact h (getLast?_mem _ _ hlast)

theorem ropeLines_no_nl (t : Str) (ht : '\n' ∉ t) : ropeLines t = [t] := by
  induction t with
  | nil => rfl
  | cons c t ih =>
      have hc : ¬ c = '\n' := fun h => ht (by simp [h])
      have ht' : '\n' ∉ t := fun h => ht (by simp [h])
      simp only [ropeLines, if_neg hc, ih ht']

theorem ropeLines_flat (t x : Str) (ht : '\n' ∉ t) :
    ropeLines (t ++ '\n' :: x) = (t ++ ['\n']) :: ropeLines x := by
  induction t with
  | nil => simp [ropeLines]
  | cons c t ih =>
      have hc : ¬ c = '\n' := fun h => ht (by simp [h])
      have ht' : '\n' ∉ t := fun h => ht (by simp [h])
      simp only [List.cons_append, ropeLines, if_neg hc, List.append_eq,
        ih ht']

theorem glue_ne_nil (t : Str) (ts : List Str) : glue (t :: ts) ≠ [] := by
  simp [glue]

theorem take_pred_cons (a rest : Str) (hr : rest ≠ []) :
    (a ++ '\n' :: rest).take ((a ++ '\n' :: rest).length - 1)
      = a ++ '\n' :: rest.take (rest.length - 1) := by
  induction a with
  | nil =>
      cases rest with
      | nil => exact absurd rfl hr
      | cons r rs => simp [List.take_succ_cons]
  | cons c a ih =>
      rw [List.cons_append, List.length_cons, Nat.add_sub_cancel]
      have hpos : 0 < (a ++ '\n' :: rest).length := by simp
      have h2 : (a ++ '\n' :: rest).length
          = ((a ++ '\n' :: rest).length - 1) + 1 := by omega
      rw [h2, List.take_succ_cons, ih, List.cons_append]

/-- Reading back row i of the freshly built buffer (trailing newline
stripped) gives text i, provided no text contains a newline. -/
theorem readRow (ts : List Str) (hts : ∀ t ∈ ts, '\n' ∉ t) (i : Nat)
    (hi : i < ts.length) :
    stripNl ((getLine ((glue ts).take ((glue ts).length - 1)) i).getD ['\n'])
      = ts.get ⟨i, hi⟩ := by
  induction ts generalizing i with
  | nil => simp at hi
  | cons t ts ih =>
      have ht : '\n' ∉ t := hts t (by simp)
      cases ts with
      | nil =>
          have hi0 : i = 0 := by simpa using hi
          subst hi0
          have hg : glue [t] = t ++ ['\n'] := rfl
          rw [hg]
          have hlen : (t ++ ['\n']).length - 1 = t.length := by simp
          rw [hlen, List.take_left, getLine, ropeLines_no_nl t ht]
          simpa using stripNl_no_nl t ht
      | cons t₂ ts₂ =>
          have hg : glue (t :: t₂ :: ts₂) = t ++ '\n' :: glue (t₂ :: ts₂) := rfl
          rw [hg, take_pred_cons _ _ (glue_ne_nil _ _), getLine,
            ropeLines_flat _ _ ht]
          cases i with
          | zero => simpa using stripNl_concat t
          | succ j =>
              have hj : j < (t₂ :: ts₂).length := by simpa using hi
              have := ih (fun u hu => hts u (by simp [hu])) j hj
              rw [getLine] at this
              simpa using this

theorem mem_flatEntries (m : Matches) (f : Path × List (Nat × Str))
    (hf : f ∈ m) (e : Nat × Str) (he : e ∈ f.2) :
    (f.1, e.1, e.2) ∈ flatEntries m := by
  induction m with
  | nil => simp at hf
  | cons g rest ih =>
      rcases List.mem_cons.mp hf with h | h
      · subst h
        simp only [flatEntries, List.mem_append]
        exact Or.inl (List.mem_map.mpr ⟨e, he, rfl⟩)
      · simp only [flatEntries, List.mem_append]
        exact Or.inr (ih h)

/-- Shared core of claims C3 and C4: with pairwise distinct keys and
newline-free texts, every mapped row of the freshly built buffer reads back
as the original text of its match. -/
theorem readBack_of_clean (m : Matches) (hnd : (flatKeys m).Nodup)
    (hnl : ∀ t ∈ flatTexts m, '\n' ∉ t) : readBackOk m := by
  intro f hf e he r hr
  have hmem := mem_flatEntries m f hf e he
  obtain ⟨i, hget⟩ := List.mem_iff_get.mp hmem
  have hklen : i.1 < (flatKeys m).length := by
    simp [flatKeys]
  have htlen : i.1 < (flatTexts m).length := by
    simp [flatTexts]
  have hkey : (flatKeys m).get ⟨i.1, hklen⟩ = (f.1, e.1) := by
    have hstep : (flatKeys m).get ⟨i.1, hklen⟩
        = (((flatEntries m).get i).1, ((flatEntries m).get i).2.1) := by
      simp [flatKeys, List.get_eq_getElem, List.getElem_map]
    rw [hstep, hget]
  have htext : (flatTexts m).get ⟨i.1, htlen⟩ = e.2 := by
    have hstep : (flatTexts m).get ⟨i.1, htlen⟩
        = ((flatEntries m).get i).2.2 := by
      simp [flatTexts, List.get_eq_getElem, List.getElem_map]
    rw [hstep, hget]
  have hlmi : lmGet (build m).lm (f.1, e.1) = some i.1 := by
    rw [build_lm, ← hkey]
    simpa using lmGet_enum_get _ hnd 0 i.1 hklen
  have hri : r = i.1 := by
    have := hr.symm.trans hlmi
    exact Option.some.inj this
  rw [build_buf, hri]
  exact (readRow (flatTexts m) hnl i.1 htlen).trans htext

/-- Claim C2 counterexample: a match list may repeat a (file, line) key
(the Vec of one file is not required to have distinct line numbers); the
later HashMap insert then overwrites the earlier one, the LineMap has fewer
entries than totalMatchCount, and row 0 has no preimage — the map is not a
bijection onto {0, ..., totalMatchCount-1}. -/
theorem c2_bijection_cex :
    ¬ lineMapBijective [("a", [(0, "x".data), (0, "y".data)])]
        (build [("a", [(0, "x".data), (0, "y".data)])]).lm := by
  intro h
  obtain ⟨k, hkmem, hk⟩ := h.2.2 0 (by decide)
  have hfk : flatKeys [("a", [(0, "x".data), (0, "y".data)])]
      = [("a", 0), ("a", 0)] := by decide
  rw [hfk] at hkmem
  have hk0 : k = ("a", 0) := by
    simpa using hkmem
  rw [hk0] at hk
  exact absurd hk (by decide)

/-- Claim C2 (amended): for every non-empty match set whose (file, line)
keys are pairwise distinct (HashMap paths are unique; per-file lists must
not repeat a line), the LineMap built at construction is a bijection
between the key set and {0, ..., totalMatchCount-1}. -/
theorem c2_lineMap_bijection (m : Matches) (_hne : m ≠ [])
    (hnd : (flatKeys m).Nodup) : lineMapBijective m (build m).lm := by
  have hlm := build_lm m
  have hlen := flatKeys_length m
  refine ⟨?_, ?_, ?_⟩
  · intro k hk
    obtain ⟨i, hget⟩ := List.mem_iff_get.mp hk
    have hi := i.2
    refine ⟨i.1, by omega, ?_⟩
    rw [hlm, ← hget]
    simpa using lmGet_enum_get _ hnd 0 i.1 i.2
  · intro k₁ h₁ k₂ h₂ heq
    obtain ⟨i, hgi⟩ := List.mem_iff_get.mp h₁
    obtain ⟨j, hgj⟩ := List.mem_iff_get.mp h₂
    rw [hlm, ← hgi, ← hgj] at heq
    rw [lmGet_enum_get _ hnd 0 i.1 i.2, lmGet_enum_get _ hnd 0 j.1 j.2] at heq
    have hij : i.1 = j.1 := by simpa using heq
    rw [← hgi, ← hgj]
    congr 1
    exact Fin.ext hij
  · intro r hr
    have hrlen : r < (flatKeys m).length := by omega
    refine ⟨(flatKeys m).get ⟨r, hrlen⟩, List.get_mem _ _ _, ?_⟩
    rw [hlm]
    simpa using lmGet_enum_get _ hnd 0 r hrlen

/-- Witness for c2_lineMap_bijection at the concrete scenario match set. -/
theorem c2_lineMap_bijection_wit :
    matchesC1 ≠ [] ∧ (flatKeys matchesC1).Nodup ∧
    lineMapBijective matchesC1 (build matchesC1).lm :=
  ⟨by decide, by decide, c2_lineMap_bijection matchesC1 (by decide) (by decide)⟩

/-- Claim C3 counterexample: when an original text contains a line
terminator it spans two buffer rows, and reading back the mapped row
returns only its first line: for {"a": [(0, "x\ny")]} row 0 reads back as
"x", not "x\ny". -/
theorem c3_readback_cex : ¬ readBackOk [("a", [(0, "x\ny".data)])] := fun h =>
  absurd
    (h ("a", [(0, "x\ny".data)]) (by decide) (0, "x\ny".data) (by decide) 0
      (by decide))
    (by decide)

/-- Claim C3 (amended): provided the (file, line) keys are pairwise
distinct and no original text contains a line terminator, reading back row
r of the freshly built buffer for every (file, line) with
LineMap[(file, line)] = r (trailing terminator stripped) returns exactly
that match's original text. -/
theorem c3_readback (m : Matches) (hnd : (flatKeys m).Nodup)
    (hnl : ∀ t ∈ flatTexts m, '\n' ∉ t) : readBackOk m :=
  readBack_of_clean m hnd hnl

/-- Witness for c3_readback at the concrete scenario match set. -/
theorem c3_readback_wit :
    (flatKeys matchesC1).Nodup ∧ (∀ t ∈ flatTexts matchesC1, '\n' ∉ t) ∧
    readBackOk matchesC1 :=
  ⟨by decide, by decide, c3_readback matchesC1 (by decide) (by decide)⟩

/-- Claim C4 counterexample: committing the untouched buffer of
{"a": [(0, "x\ny")]} is not a no-op: the embedded newline makes the row
read back as "x", a pending edit is recorded, the file is opened and one
transaction is applied, so the result is (1, 1), not (0, 0). -/
theorem c4_no_edits_cex :
    ¬ (applyRefactor (build [("a", [(0, "x\ny".data)])]).lm
        (build [("a", [(0, "x\ny".data)])]).buf
        [("a", [(0, "x\ny".data)])] [("a", some "x\nz".data)]
      = (0, 0, [("a", some "x\nz".data)])) ∧
    applyRefactor (build [("a", [(0, "x\ny".data)])]).lm
        (build [("a", [(0, "x\ny".data)])]).buf
        [("a", [(0, "x\ny".data)])] [("a", some "x\nz".data)]
      = (1, 1, [("a", some "x".data)]) :=
  ⟨by decide, by decide⟩

/-- If every entry of a file reads back unchanged, the file produces no
pending changes. -/
theorem pending_nil (lm : LineMap) (buf : Str) (p : Path)
    (es : List (Nat × Str))
    (h : ∀ e ∈ es, ∀ r, lmGet lm (p, e.1) = some r →
      stripNl ((getLine buf r).getD ['\n']) = e.2) :
    pendingChanges lm buf p es = [] := by
  induction es with
  | nil => rfl
  | cons e es ih =>
      have htail := ih (fun u hu => h u (by simp [hu]))
      rw [pendingChanges]
      cases hg : lmGet lm (p, e.1) with
      | none => exact htail
      | some r =>
          have heq := h e (by simp) r hg
          simp only [heq.symm]
          rw [if_neg (by simp), htail]

/-- A match list every file of which has no pending changes reconciles to
(0, 0) and leaves the file system untouched. -/
theorem applyRefactor_of_pending_nil (lm : LineMap) (buf : Str)
    (ms : Matches) (fs : FS)
    (h : ∀ f ∈ ms, pendingChanges lm buf f.1 f.2 = []) :
    applyRefactor lm buf ms fs = (0, 0, fs) := by
  induction ms generalizing fs with
  | nil => rfl
  | cons f rest ih =>
      have hf : processFile lm buf fs f = (0, 0, fs) := by
        unfold processFile
        rw [h f (by simp)]
        rfl
      rw [applyRefactor, hf, ih _ (fun g hg => h g (by simp [hg]))]
      rfl

/-- Claim C4 (amended): provided the (file, line) keys are pairwise
distinct and no original text contains a line terminator, committing the
synthetic buffer exactly as constructed (no user edits) opens no file,
applies zero transactions, and returns (0, 0) with the file system
unchanged. -/
theorem c4_no_edits (m : Matches) (fs : FS) (hnd : (flatKeys m).Nodup)
    (hnl : ∀ t ∈ flatTexts m, '\n' ∉ t) :
    applyRefactor (build m).lm (build m).buf m fs = (0, 0, fs) := by
  have hro := readBack_of_clean m hnd hnl
  exact applyRefactor_of_pending_nil _ _ m fs
    (fun f hf => pending_nil _ _ _ _ (hro f hf))

/-- Witness for c4_no_edits at the concrete scenario match set. -/
theorem c4_no_edits_wit :
    (flatKeys matchesC1).Nodup ∧ (∀ t ∈ flatTexts matchesC1, '\n' ∉ t) ∧
    applyRefactor (build matchesC1).lm (build matchesC1).buf matchesC1 fsC1
      = (0, 0, fsC1) :=
  ⟨by decide, by decide, c4_no_edits matchesC1 fsC1 (by decide) (by decide)⟩

theorem applyRefactor_cons (lm : LineMap) (buf : Str)
    (f : Path × List (Nat × Str)) (rest : Matches) (fs : FS) :
    applyRefactor lm buf (f :: rest) fs =
      ((processFile lm buf fs f).1
         + (applyRefactor lm buf rest (processFile lm buf fs f).2.2).1,
       (processFile lm buf fs f).2.1
         + (applyRefactor lm buf rest (processFile lm buf fs f).2.2).2.1,
       (applyRefactor lm buf rest (processFile lm buf fs f).2.2).2.2) := rfl

/-- The staging loop keeps exactly the changes whose line is still below
the file's line count, maps each to its character range, and counts them. -/
theorem stageChanges_eq (d : Str) (chs : List (Nat × Nat × Str)) :
    stageChanges d chs =
      ((chs.filter (fun ch => ch.1 < lenLines d)).map
        (fun ch => (lineToChar d ch.1, lineToChar d ch.1 + ch.2.1, ch.2.2)),
       (chs.filter (fun ch => ch.1 < lenLines d)).length) := by
  induction chs with
  | nil => rfl
  | cons ch rest ih =>
      rw [stageChanges, ih]
      by_cases h : lenLines d > ch.1
      · simp [h]
      · simp [h]

theorem openFile_writeFile_ne (fs : FS) (p : Path) (c : Str) (q : Path)
    (h : q ≠ p) : openFile (writeFile fs p c) q = openFile fs q := by
  induction fs with
  | nil => rfl
  | cons e rest ih =>
      by_cases he : e.1 = p
      · have hne : ¬ e.1 = q := fun hh => h (hh ▸ he)
        rw [writeFile, if_pos he, openFile, openFile, if_neg hne, if_neg hne,
          ih]
      · rw [writeFile, if_neg he, openFile, openFile]
        by_cases hq : e.1 = q
        · rw [if_pos hq, if_pos hq]
        · rw [if_neg hq, if_neg hq, ih]

theorem openFile_processFile_ne (lm : LineMap) (buf : Str) (fs : FS)
    (f : Path × List (Nat × Str)) (q : Path) (h : q ≠ f.1) :
    openFile (processFile lm buf fs f).2.2 q = openFile fs q := by
  unfold processFile
  by_cases hemp : (pendingChanges lm buf f.1 f.2).isEmpty
  · simp [hemp]
  · cases hop : openFile fs f.1 with
    | none => simp [hemp, hop]
    | some d => simp [hemp, hop, openFile_writeFile_ne _ _ _ _ h]

theorem counts_congr (lm : LineMap) (buf : Str) (ms : Matches)
    (fs₁ fs₂ : FS)
    (h : ∀ f ∈ ms, openFile fs₁ f.1 = openFile fs₂ f.1) :
    ms.filter (fileApplies lm buf fs₁) = ms.filter (fileApplies lm buf fs₂) ∧
    ms.map (fileKeptCount lm buf fs₁) = ms.map (fileKeptCount lm buf fs₂) := by
  induction ms with
  | nil => exact ⟨rfl, rfl⟩
  | cons f rest ih =>
      have hf := h f (by simp)
      have ihh := ih (fun g hg => h g (by simp [hg]))
      constructor
      · rw [List.filter_cons, List.filter_cons, ihh.1]
        unfold fileApplies
        rw [hf]
      · rw [List.map_cons, List.map_cons, ihh.2]
        unfold fileKeptCount
        rw [hf]

theorem processFile_fst (lm : LineMap) (buf : Str) (fs : FS)
    (f : Path × List (Nat × Str)) :
    (processFile lm buf fs f).1
      = if fileApplies lm buf fs f = true then 1 else 0 := by
  unfold processFile fileApplies
  by_cases hemp : (pendingChanges lm buf f.1 f.2).isEmpty
  · simp [hemp]
  · cases hop : openFile fs f.1 with
    | none => simp [hemp, hop]
    | some d => simp [hemp, hop]

theorem processFile_snd (lm : LineMap) (buf : Str) (fs : FS)
    (f : Path × List (Nat × Str)) :
    (processFile lm buf fs f).2.1 = fileKeptCount lm buf fs f := by
  unfold processFile fileKeptCount
  by_cases hemp : (pendingChanges lm buf f.1 f.2).isEmpty
  · cases hop : openFile fs f.1 <;> simp [hemp, hop]
  · cases hop : openFile fs f.1 with
    | none => simp [hemp, hop]
    | some d => simp [hemp, hop, stageChanges_eq]

/-- The counters of apply_refactor: documents counts the files with pending
changes that open, count sums the per-file surviving edits (paths distinct,
as HashMap keys are). -/
theorem applyRefactor_counts (lm : LineMap) (buf : Str) (ms : Matches)
    (fs : FS) (hp : pathsNodup ms) :
    (applyRefactor lm buf ms fs).1
      = (ms.filter (fileApplies lm buf fs)).length ∧
    (applyRefactor lm buf ms fs).2.1
      = (ms.map (fileKeptCount lm buf fs)).sum := by
  induction ms generalizing fs with
  | nil => exact ⟨rfl, rfl⟩
  | cons f rest ih =>
      unfold pathsNodup at hp
      rw [List.map_cons, List.nodup_cons] at hp
      obtain ⟨hnotin, hrest⟩ := hp
      have hpre : ∀ g ∈ rest,
          openFile (processFile lm buf fs f).2.2 g.1 = openFile fs g.1 := by
        intro g hg
        apply openFile_processFile_ne
        intro hgf
        exact hnotin (hgf ▸ List.mem_map_of_mem _ hg)
      have ihh := ih (processFile lm buf fs f).2.2 hrest
      have hcongr := counts_congr lm buf rest _ fs hpre
      constructor
      · rw [applyRefactor_cons]
        dsimp only
        rw [processFile_fst, ihh.1, hcongr.1, List.filter_cons]
        by_cases hap : fileApplies lm buf fs f = true
        · simp [hap]
          omega
        · simp [hap]
      · rw [applyRefactor_cons]
        dsimp only
        rw [processFile_snd, ihh.2, hcongr.2, List.map_cons, List.sum_cons]

/-- Claim C5: during reconciliation every pending edit whose line is not
below the opened file's line count is dropped (it is neither staged nor
counted); a file with pending changes that opens gets exactly one
transaction, incrementing documents once, and count grows by one per kept
edit.  Globally, documents is the number of files with pending changes that
open, and count the sum of the kept edits (file paths distinct, as HashMap
keys are). -/
theorem c5_drop_and_count (lm : LineMap) (buf : Str) (ms : Matches)
    (fs : FS) (hp : pathsNodup ms) :
    ((applyRefactor lm buf ms fs).1
        = (ms.filter (fileApplies lm buf fs)).length ∧
      (applyRefactor lm buf ms fs).2.1
        = (ms.map (fileKeptCount lm buf fs)).sum) ∧
    (∀ p es d, openFile fs p = some d →
      pendingChanges lm buf p es ≠ [] →
      processFile lm buf fs (p, es) =
        (1,
         ((pendingChanges lm buf p es).filter
           (fun ch => ch.1 < lenLines d)).length,
         writeFile fs p (applyChanges d
           (((pendingChanges lm buf p es).filter
               (fun ch => ch.1 < lenLines d)).map
             (fun ch =>
               (lineToChar d ch.1, lineToChar d ch.1 + ch.2.1, ch.2.2)))))) := by
  refine ⟨applyRefactor_counts lm buf ms fs hp, ?_⟩
  intro p es d hop hne
  cases hchs : pendingChanges lm buf p es with
  | nil => exact absurd hchs hne
  | cons a l =>
      unfold processFile
      dsimp only
      rw [hchs, hop]
      simp [stageChanges_eq]

/-- Witness for c5_drop_and_count at the concrete scenario. -/
theorem c5_drop_and_count_wit :
    pathsNodup matchesC1 ∧
    (((applyRefactor (build matchesC1).lm editedC1 matchesC1 fsC1).1
        = (matchesC1.filter
            (fileApplies (build matchesC1).lm editedC1 fsC1)).length ∧
      (applyRefactor (build matchesC1).lm editedC1 matchesC1 fsC1).2.1
        = (matchesC1.map
            (fileKeptCount (build matchesC1).lm editedC1 fsC1)).sum) ∧
    (∀ p es d, openFile fsC1 p = some d →
      pendingChanges (build matchesC1).lm editedC1 p es ≠ [] →
      processFile (build matchesC1).lm editedC1 fsC1 (p, es) =
        (1,
         ((pendingChanges (build matchesC1).lm editedC1 p es).filter
           (fun ch => ch.1 < lenLines d)).length,
         writeFile fsC1 p (applyChanges d
           (((pendingChanges (build matchesC1).lm editedC1 p es).filter
               (fun ch => ch.1 < lenLines d)).map
             (fun ch =>
               (lineToChar d ch.1, lineToChar d ch.1 + ch.2.1, ch.2.2))))))) :=
  ⟨by decide,
    c5_drop_and_count (build matchesC1).lm editedC1 matchesC1 fsC1 (by decide)⟩

/-- Claim C9: when opening one file fails, reconciliation of the whole
match list behaves exactly as if that file's entry were absent: its
counters are not incremented, nothing is rolled back, and every other file
is processed (and, when it has pending edits, applied) as usual.  The
hypothesis that no earlier file shares the failing path reflects HashMap
key uniqueness. -/
theorem c9_open_failure (lm : LineMap) (buf : Str) (pre post : Matches)
    (p : Path) (es : List (Nat × Str)) (fs : FS)
    (hopen : openFile fs p = none) (hpre : ∀ g ∈ pre, g.1 ≠ p) :
    applyRefactor lm buf (pre ++ (p, es) :: post) fs
      = applyRefactor lm buf (pre ++ post) fs := by
  induction pre generalizing fs with
  | nil =>
      have hr : processFile lm buf fs (p, es) = (0, 0, fs) := by
        unfold processFile
        by_cases hemp : (pendingChanges lm buf p es).isEmpty
        · simp [hemp]
        · simp [hemp, hopen]
      rw [List.nil_append, List.nil_append, applyRefactor_cons, hr]
      dsimp only
      simp
  | cons g pre ih =>
      rw [List.cons_append, List.cons_append, applyRefactor_cons,
        applyRefactor_cons]
      have hg : p ≠ g.1 := fun hh => (hpre g (by simp)) hh.symm
      have hfs : openFile (processFile lm buf fs g).2.2 p = none := by
        rw [openFile_processFile_ne _ _ _ _ _ hg, hopen]
      rw [ih _ hfs (fun u hu => hpre u (by simp [hu]))]

/-- Witness for c9_open_failure: a.txt cannot be opened; the b.txt and
c.txt entries around it reconcile as if a.txt were absent. -/
theorem c9_open_failure_wit :
    openFile [("b.txt", some "zz".data), ("c.txt", some "yy".data)] "a.txt"
      = none ∧
    (∀ g ∈ [("b.txt", [(0, "bb".data)])], g.1 ≠ "a.txt") ∧
    applyRefactor
        (build [("b.txt", [(0, "bb".data)]), ("a.txt", [(0, "aa".data)]),
                ("c.txt", [(0, "cc".data)])]).lm
        "xx\nyy\nzz".data
        ([("b.txt", [(0, "bb".data)])]
          ++ ("a.txt", [(0, "aa".data)]) :: [("c.txt", [(0, "cc".data)])])
        [("b.txt", some "zz".data), ("c.txt", some "yy".data)]
      = applyRefactor
          (build [("b.txt", [(0, "bb".data)]), ("a.txt", [(0, "aa".data)]),
                  ("c.txt", [(0, "cc".data)])]).lm
          "xx\nyy\nzz".data
          ([("b.txt", [(0, "bb".data)])] ++ [("c.txt", [(0, "cc".data)])])
          [("b.txt", some "zz".data), ("c.txt", some "yy".data)] :=
  ⟨by decide, by decide,
    c9_open_failure
      (build [("b.txt", [(0, "bb".data)]), ("a.txt", [(0, "aa".data)]),
              ("c.txt", [(0, "cc".data)])]).lm
      "xx\nyy\nzz".data
      [("b.txt", [(0, "bb".data)])] [("c.txt", [(0, "cc".data)])]
      "a.txt" [(0, "aa".data)]
      [("b.txt", some "zz".data), ("c.txt", some "yy".data)]
      (by decide) (by decide)⟩

/-- Claim C1: for matches {"a.txt": [(0,"foo"), (2,"bar")], "b.txt":
[(1,"baz")]}, construction yields buffer "foo\nbar\nbaz" and LineMap
{(a.txt,0) -> 0, (a.txt,2) -> 1, (b.txt,1) -> 2}; after editing buffer row 1
to "qux", committing returns (1,1), rewrites line 2 of a.txt from "bar" to
"qux", and leaves b.txt and every other line of a.txt untouched. -/
theorem c1_concrete_scenario :
    (build matchesC1).buf = "foo\nbar\nbaz".data ∧
    lmGet (build matchesC1).lm ("a.txt", 0) = some 0 ∧
    lmGet (build matchesC1).lm ("a.txt", 2) = some 1 ∧
    lmGet (build matchesC1).lm ("b.txt", 1) = some 2 ∧
    applyRefactor (build matchesC1).lm editedC1 matchesC1 fsC1 =
      (1, 1, [("a.txt", some "foo\nmid\nqux\ntail".data),
              ("b.txt", some "x\nbaz".data)]) := by
  decide

/-- Claim C6 counterexample: from ConfirmPending (apply_prompt set), the
Escape key leaves the session in ConfirmPending, not Browsing: the Esc arm
of handle_event clears sticky but never resets apply_prompt. -/
theorem c6_escape_cex :
    sessionState
        (handleEvent none [] [] [] ⟨none, true, none⟩ [] (.key .esc)).sticky
        (handleEvent none [] [] [] ⟨none, true, none⟩ [] (.key .esc)).apply_prompt
      = SState.confirmPending ∧
    ¬ sessionState
        (handleEvent none [] [] [] ⟨none, true, none⟩ [] (.key .esc)).sticky
        (handleEvent none [] [] [] ⟨none, true, none⟩ [] (.key .esc)).apply_prompt
      = SState.browsing := by
  decide

/-- Claim C6 (amended): on Escape, from every state, the controller clears
StickyNavigation, does not touch any file and does not close the session;
from Browsing or StickyNavigation the resulting state is Browsing, but from
ConfirmPending the prompt stays pending. -/
theorem c6_escape (km : Option TrieNode) (ms : Matches) (lm : LineMap)
    (buf : Str) (s : RState) (fs : FS) :
    (handleEvent km ms lm buf s fs (.key .esc)).sticky = none ∧
    (handleEvent km ms lm buf s fs (.key .esc)).apply_prompt = s.apply_prompt ∧
    (handleEvent km ms lm buf s fs (.key .esc)).closed = false ∧
    (handleEvent km ms lm buf s fs (.key .esc)).fs = fs ∧
    (handleEvent km ms lm buf s fs (.key .esc)).applied = none ∧
    (s.apply_prompt = false →
      sessionState (handleEvent km ms lm buf s fs (.key .esc)).sticky
        (handleEvent km ms lm buf s fs (.key .esc)).apply_prompt = .browsing) ∧
    (s.apply_prompt = true →
      sessionState (handleEvent km ms lm buf s fs (.key .esc)).sticky
        (handleEvent km ms lm buf s fs (.key .esc)).apply_prompt
        = .confirmPending) := by
  refine ⟨rfl, rfl, rfl, rfl, rfl, fun hp => ?_, fun hp => ?_⟩ <;>
    simp [handleEvent, sessionState, hp]

/-- Witness for c6_escape at a concrete state. -/
theorem c6_escape_wit :
    (handleEvent none [] [] [] ⟨none, false, none⟩ [] (.key .esc)).sticky
      = none ∧
    (handleEvent none [] [] [] ⟨none, false, none⟩ [] (.key .esc)).apply_prompt
      = false ∧
    (handleEvent none [] [] [] ⟨none, false, none⟩ [] (.key .esc)).closed
      = false ∧
    (handleEvent none [] [] [] ⟨none, false, none⟩ [] (.key .esc)).fs = [] ∧
    (handleEvent none [] [] [] ⟨none, false, none⟩ [] (.key .esc)).applied
      = none ∧
    (false = false →
      sessionState
        (handleEvent none [] [] [] ⟨none, false, none⟩ [] (.key .esc)).sticky
        (handleEvent none [] [] [] ⟨none, false, none⟩ [] (.key .esc)).apply_prompt
        = .browsing) ∧
    (false = true →
      sessionState
        (handleEvent none [] [] [] ⟨none, false, none⟩ [] (.key .esc)).sticky
        (handleEvent none [] [] [] ⟨none, false, none⟩ [] (.key .esc)).apply_prompt
        = .confirmPending) :=
  c6_escape none [] [] [] ⟨none, false, none⟩ []

/-- Claim C7: a key (other than Esc, which is intercepted earlier) that
resolves to a leaf command of the unsupported set, in any non-ConfirmPending
state, sets the "not supported" status, consumes the event, and leaves the
sticky node, the prompt flag, the info box and the file system unchanged. -/
theorem c7_unsupported (km : Option TrieNode) (ms : Matches) (lm : LineMap)
    (buf : Str) (s : RState) (fs : FS) (k : Key) (cmd : String)
    (hp : s.apply_prompt = false) (hk : k ≠ Key.esc)
    (hres : resolveKey s.sticky km k = some (.leaf cmd))
    (hmem : cmd ∈ UNSUPPORTED_COMMANDS) :
    handleEvent km ms lm buf s fs (.key k) =
      { sticky := s.sticky, apply_prompt := s.apply_prompt
        autoinfo := s.autoinfo, fs := fs
        status := some "Command not supported in refactor view"
        consumed := true, closed := false, applied := none } := by
  simp [handleEvent, hk, hp, hres, hmem]

/-- Witness for c7_unsupported: the key g bound at top level to goto_line
(an unsupported command) from the Browsing state. -/
theorem c7_unsupported_wit :
    (⟨none, false, none⟩ : RState).apply_prompt = false ∧
    Key.char 'g' ≠ Key.esc ∧
    resolveKey none (some [(Key.char 'g', KeyTrie.leaf "goto_line")])
      (Key.char 'g') = some (.leaf "goto_line") ∧
    "goto_line" ∈ UNSUPPORTED_COMMANDS ∧
    handleEvent (some [(Key.char 'g', KeyTrie.leaf "goto_line")]) [] [] []
      ⟨none, false, none⟩ [] (.key (.char 'g')) =
      { sticky := none, apply_prompt := false, autoinfo := none, fs := []
        status := some "Command not supported in refactor view"
        consumed := true, closed := false, applied := none } :=
  ⟨rfl, by decide, rfl, by decide,
    c7_unsupported (some [(Key.char 'g', KeyTrie.leaf "goto_line")]) [] [] []
      ⟨none, false, none⟩ [] (.char 'g') "goto_line" rfl (by decide) rfl
      (by decide)⟩

/-- Claim C8: from ConfirmPending, a character key other than y or Y sets
the "Aborted" status, clears the prompt flag (hence, when no sticky node is
held, the state is Browsing again), consumes the event, runs no
reconciliation and leaves every real file unchanged. -/
theorem c8_abort (km : Option TrieNode) (ms : Matches) (lm : LineMap)
    (buf : Str) (s : RState) (fs : FS) (c : Char)
    (hp : s.apply_prompt = true) (hy : c ≠ 'y') (hY : c ≠ 'Y') :
    handleEvent km ms lm buf s fs (.key (.char c)) =
      { sticky := s.sticky, apply_prompt := false, autoinfo := s.autoinfo
        fs := fs, status := some "Aborted", consumed := true, closed := false
        applied := none } ∧
    (s.sticky = none →
      sessionState (handleEvent km ms lm buf s fs (.key (.char c))).sticky
        (handleEvent km ms lm buf s fs (.key (.char c))).apply_prompt
        = .browsing) := by
  have h : handleEvent km ms lm buf s fs (.key (.char c)) =
      { sticky := s.sticky, apply_prompt := false, autoinfo := s.autoinfo
        fs := fs, status := some "Aborted", consumed := true, closed := false
        applied := none } := by
    simp [handleEvent, hp, keyChar, hy, hY]
  refine ⟨h, fun hst => ?_⟩
  rw [h]
  simp [sessionState, hst]

/-- Witness for c8_abort: answering n to the prompt. -/
theorem c8_abort_wit :
    (⟨none, true, none⟩ : RState).apply_prompt = true ∧
    ('n' ≠ 'y' ∧ 'n' ≠ 'Y') ∧
    (handleEvent none [] [] [] ⟨none, true, none⟩
        [("a.txt", some "foo".data)] (.key (.char 'n')) =
      { sticky := none, apply_prompt := false, autoinfo := none
        fs := [("a.txt", some "foo".data)], status := some "Aborted"
        consumed := true, closed := false, applied := none } ∧
    ((none : Option TrieNode) = none →
      sessionState
        (handleEvent none [] [] [] ⟨none, true, none⟩
          [("a.txt", some "foo".data)] (.key (.char 'n'))).sticky
        (handleEvent none [] [] [] ⟨none, true, none⟩
          [("a.txt", some "foo".data)] (.key (.char 'n'))).apply_prompt
        = .browsing)) :=
  ⟨rfl, ⟨by decide, by decide⟩,
    c8_abort none [] [] [] ⟨none, true, none⟩ [("a.txt", some "foo".data)]
      'n' rfl (by decide) (by decide)⟩

/-- Claim C10: while the confirmation prompt is pending, every key event
other than Escape is consumed, whether or not the key has a character and
whether or not it resolves to any binding. -/
theorem c10_prompt_consumes (km : Option TrieNode) (ms : Matches)
    (lm : LineMap) (buf : Str) (s : RState) (fs : FS) (k : Key)
    (hp : s.apply_prompt = true) (hk : k ≠ Key.esc) :
    (handleEvent km ms lm buf s fs (.key k)).consumed = true := by
  cases k with
  | esc => exact absurd rfl hk
  | char c =>
      by_cases hc : c = 'y' ∨ c = 'Y' <;> simp [handleEvent, hp, keyChar, hc]
  | other n => simp [handleEvent, hp, keyChar]

/-- Witness for c10_prompt_consumes: a non-character key with no binding at
all is still consumed while the prompt is pending. -/
theorem c10_prompt_consumes_wit :
    (⟨none, true, none⟩ : RState).apply_prompt = true ∧
    Key.other 0 ≠ Key.esc ∧
    (handleEvent none [] [] [] ⟨none, true, none⟩ [] (.key (.other 0))).consumed
      = true :=
  ⟨rfl, by decide,
    c10_prompt_consumes none [] [] [] ⟨none, true, none⟩ [] (.other 0) rfl
      (by decide)⟩

end Refactor
